import Mathlib

/-!
Verification of the prinfer core: a shallow embedding of the node matcher,
node locator, hover extractor, error wrapping and public API surface
(src/core.ts, src/core/hover.ts, src/core/node-find.ts, src/core/node-match.ts,
src/errors.ts, src/index.ts), together with theorems settling the spec claims.

Syntax trees are modelled as a mutual inductive family: a `Node` carries its
kind tag, its trivia-skipped start offset (`getStart`), its end offset
(`getEnd`), its identifier/literal text, and the optional `name`,
`initializer` and `expression` fields the TypeScript predicates inspect,
plus the ordered child list that `ts.forEachChild` iterates.  The optional
fields hold the same nodes that also appear in the child list of a
well-formed tree; the algorithms below access them exactly where the source
accesses the corresponding TypeScript node fields.

The type checker is external to the repository; it is modelled as a record
of its queried operations (`getResolvedSignature`, `signatureToString`, ...)
over abstract signature/type/symbol handles.  Each operation returns
`Except Err` because any checker call may raise an internal compiler error,
which is what src/core/hover.ts catches and wraps.
-/

/-- The TypeScript node kinds distinguished by the predicates of
src/core/node-match.ts and src/core/hover.ts (`ts.isFunctionDeclaration`,
`ts.isVariableDeclaration`, ...).  `other` stands for every further kind,
none of which any predicate in the repository treats specially. -/
inductive NodeKind where
  | functionDeclaration
  | variableDeclaration
  | methodDeclaration
  | methodSignature
  | propertyAssignment
  | callExpression
  | identifier
  | propertyAccessExpression
  | arrowFunction
  | functionExpression
  | classDeclaration
  | interfaceDeclaration
  | parameter
  | propertyDeclaration
  | propertySignature
  | typeAliasDeclaration
  | stringLiteral
  | numericLiteral
  | sourceFileNode
  | other
deriving DecidableEq, Repr

mutual
/-- A syntax node: kind, `getStart` offset, `getEnd` offset, identifier or
literal text, the `name` / `initializer` / `expression` node fields, and the
children visited by `ts.forEachChild`. -/
inductive Node where
  | mk (kind : NodeKind) (startPos endPos : Nat) (text : String)
       (nameNode : ONode) (initNode : ONode) (exprNode : ONode)
       (children : Forest)

/-- An optional node field (a TypeScript node property that may be
`undefined`). -/
inductive ONode where
  | none
  | some (n : Node)

/-- The ordered list of children of a node. -/
inductive Forest where
  | nil
  | cons (hd : Node) (tl : Forest)
end

def Node.kind : Node → NodeKind
  | .mk k _ _ _ _ _ _ _ => k

def Node.startPos : Node → Nat
  | .mk _ s _ _ _ _ _ _ => s

def Node.endPos : Node → Nat
  | .mk _ _ e _ _ _ _ _ => e

def Node.text : Node → String
  | .mk _ _ _ t _ _ _ _ => t

def Node.nameNode : Node → ONode
  | .mk _ _ _ _ nm _ _ _ => nm

def Node.initNode : Node → ONode
  | .mk _ _ _ _ _ i _ _ => i

def Node.exprNode : Node → ONode
  | .mk _ _ _ _ _ _ x _ => x

def Node.children : Node → Forest
  | .mk _ _ _ _ _ _ _ cs => cs

/-- Source `node.getWidth()`: `getEnd() - getStart()`. -/
def Node.width (n : Node) : Nat := n.endPos - n.startPos

/-- Source `node.getStart() <= pos && pos < node.getEnd()`: the containment test
both locator traversals perform (negated) before descending. -/
def Node.containsPos (n : Node) (pos : Nat) : Prop :=
  n.startPos ≤ pos ∧ pos < n.endPos

instance (n : Node) (pos : Nat) : Decidable (n.containsPos pos) := by
  unfold Node.containsPos; infer_instance

def ONode.getD : ONode → Node → Node
  | .none, d => d
  | .some n, _ => n

def ONode.isSome : ONode → Bool
  | .none => false
  | .some _ => true

/-- A parsed source file: its file name, its line-start offsets
(`sourceFile.getLineStarts()`, sorted, first entry 0), and its root node
(the `ts.SourceFile` node itself, on which each traversal starts). -/
structure SourceFile where
  fileName : String
  lineStarts : List Nat
  root : Node

/-- Source `sourceFile.getEnd()`: the end offset of the source-file node. -/
def SourceFile.getEnd (sf : SourceFile) : Nat := sf.root.endPos

/- ===== src/core/node-match.ts ===== -/

/-- Source `isArrowOrFnExpr`: arrow function or function expression (accepts the
possibly-`undefined` initializer field). -/
def isArrowOrFnExpr : ONode → Bool
  | .none => false
  | .some n => n.kind = .arrowFunction ∨ n.kind = .functionExpression

/-- Source `nodeNameText`: text of an identifier / string-literal / numeric-literal
name; `undefined` for computed names and everything else. -/
def nodeNameText : ONode → Option String
  | .none => Option.none
  | .some n =>
    if n.kind = .identifier then Option.some n.text
    else if n.kind = .stringLiteral then Option.some n.text
    else if n.kind = .numericLiteral then Option.some n.text
    else Option.none

/-- Source `isFunctionLikeNamed`: function declaration named `name`; variable
declaration with identifier name `name` whose initializer is an
arrow/function expression; method declaration/signature named `name`;
property assignment named `name` whose value is an arrow/function
expression. -/
def isFunctionLikeNamed (node : Node) (name : String) : Bool :=
  if node.kind = .functionDeclaration ∧ nodeNameText node.nameNode = Option.some name then
    true
  else if node.kind = .variableDeclaration ∧
      (match node.nameNode with
        | .some nm => nm.kind = .identifier ∧ nm.text = name
        | .none => False : Bool) = true then
    isArrowOrFnExpr node.initNode
  else if (node.kind = .methodDeclaration ∨ node.kind = .methodSignature) ∧
      nodeNameText node.nameNode = Option.some name then
    true
  else if node.kind = .propertyAssignment ∧ nodeNameText node.nameNode = Option.some name then
    isArrowOrFnExpr node.initNode
  else
    false

/-- Source `isVariableNamed`: a variable declaration with plain identifier name
`name`. -/
def isVariableNamed (node : Node) (name : String) : Bool :=
  decide (node.kind = .variableDeclaration) &&
    (match node.nameNode with
      | .some nm => nm.kind = .identifier ∧ nm.text = name
      | .none => False : Bool)

/-- Source `isNamedNode`: function-like or variable match. -/
def isNamedNode (node : Node) (name : String) : Bool :=
  isFunctionLikeNamed node name || isVariableNamed node name

/-- Source `isCallExpressionNamed`: a call of a bare identifier `name`, or a call
through a property access whose accessed member is `name`. -/
def isCallExpressionNamed (node : Node) (name : String) : Bool :=
  if node.kind = .callExpression then
    match node.exprNode with
    | .some expr =>
      if expr.kind = .identifier then expr.text = name
      else if expr.kind = .propertyAccessExpression then
        (match expr.nameNode with
          | .some nm => nm.text = name
          | .none => False : Bool)
      else false
    | .none => false
  else false

/-- The 0-based line of an offset, computed from the sorted line-start
table exactly as `getLineAndCharacterOfPosition` does (the greatest index
whose line start does not exceed the offset), plus one: the number of line
starts at or before the offset. -/
def lineNumberOfPos (ls : List Nat) (pos : Nat) : Nat :=
  ls.countP (fun s => decide (s ≤ pos))

/-- Source `getLineNumber`: 1-based line of the node's first character. -/
def getLineNumber (sf : SourceFile) (node : Node) : Nat :=
  lineNumberOfPos sf.lineStarts node.startPos

/-- Source `getLineAndCharacterOfPosition`: the 0-based (line, character) of an
offset. -/
def lineCharOfPos (ls : List Nat) (pos : Nat) : Nat × Nat :=
  let l0 := lineNumberOfPos ls pos - 1
  (l0, pos - ls.getD l0 0)

/- ===== src/core/node-find.ts ===== -/

/-- The line filter of `findNodeByNameAndLine`: no requested line, or the
node's 1-based line equals it. -/
def matchesLine (sf : SourceFile) (line : Option Int) (node : Node) : Bool :=
  match line with
  | Option.none => true
  | Option.some l => (getLineNumber sf node : Int) = l

mutual
/-- The `visit` closure of `findNodeByNameAndLine`: first declaration or
call-expression match wins; a hit stops the traversal (the mutable `found`
plus the early returns of the source). -/
def findByNameVisit (sf : SourceFile) (name : String) (line : Option Int) :
    Node → Option Node
  | n@(.mk _ _ _ _ _ _ _ cs) =>
    if isNamedNode n name && matchesLine sf line n then Option.some n
    else if isCallExpressionNamed n name && matchesLine sf line n then Option.some n
    else findByNameVisitL sf name line cs

def findByNameVisitL (sf : SourceFile) (name : String) (line : Option Int) :
    Forest → Option Node
  | .nil => Option.none
  | .cons c cs =>
    match findByNameVisit sf name line c with
    | Option.some r => Option.some r
    | Option.none => findByNameVisitL sf name line cs
end

/-- Source `findNodeByNameAndLine`: resolve a node by symbol name with optional
line disambiguation. -/
def findNodeByNameAndLine (sf : SourceFile) (name : String) (line : Option Int) :
    Option Node :=
  findByNameVisit sf name line sf.root

mutual
/-- The `visit` closure of `findSmallestNodeAtPosition`: prune subtrees not
containing the offset; a containing node replaces the current best when its
width is `<=` the best's width; then descend into the children. -/
def smallestVisit (pos : Nat) (acc : Option Node) : Node → Option Node
  | n@(.mk _ _ _ _ _ _ _ cs) =>
    if pos < n.startPos ∨ n.endPos ≤ pos then acc
    else
      smallestVisitL pos
        (match acc with
          | Option.none => Option.some n
          | Option.some r => if n.width ≤ r.width then Option.some n else Option.some r)
        cs

def smallestVisitL (pos : Nat) (acc : Option Node) : Forest → Option Node
  | .nil => acc
  | .cons c cs => smallestVisitL pos (smallestVisit pos acc c) cs
end

/-- Source `findSmallestNodeAtPosition`: the most specific node containing an
offset. -/
def findSmallestNodeAtPosition (sf : SourceFile) (pos : Nat) : Option Node :=
  smallestVisit pos Option.none sf.root

/-- The promotion test of `findHoverableAncestor`'s `visit`: the node is a
call expression and the offset lands on its callee identifier (or on the
final member name of a property-access callee); or it is a
function/class/interface declaration, a variable declaration, or a method
declaration/signature, and the offset lands on its name token.  Each
disjunct is one `bestMatch = n` block of the source, in source order. -/
def hoverPromotes (pos : Nat) (n : Node) : Bool :=
  (n.kind = .callExpression ∧
    (match n.exprNode with
      | .some expr =>
        if expr.kind = .identifier then
          expr.startPos ≤ pos ∧ pos < expr.endPos
        else if expr.kind = .propertyAccessExpression then
          (match expr.nameNode with
            | .some nm => nm.startPos ≤ pos ∧ pos < nm.endPos
            | .none => False : Bool)
        else false
      | .none => False : Bool))
  || (n.kind = .functionDeclaration ∧
    (match n.nameNode with
      | .some nm => nm.startPos ≤ pos ∧ pos < nm.endPos
      | .none => False : Bool))
  || (n.kind = .variableDeclaration ∧
    (match n.nameNode with
      | .some nm => nm.kind = .identifier ∧ nm.startPos ≤ pos ∧ pos < nm.endPos
      | .none => False : Bool))
  || ((n.kind = .methodDeclaration ∨ n.kind = .methodSignature) ∧
    (match n.nameNode with
      | .some nm => nm.kind = .identifier ∧ nm.startPos ≤ pos ∧ pos < nm.endPos
      | .none => False : Bool))
  || (n.kind = .classDeclaration ∧
    (match n.nameNode with
      | .some nm => nm.startPos ≤ pos ∧ pos < nm.endPos
      | .none => False : Bool))
  || (n.kind = .interfaceDeclaration ∧
    (match n.nameNode with
      | .some nm => nm.startPos ≤ pos ∧ pos < nm.endPos
      | .none => False : Bool))

mutual
/-- The `visit` closure of `findHoverableAncestor`: prune subtrees not
containing the offset; any containing node satisfying a promotion rule
overwrites `bestMatch`; then descend, so along the depth-first walk the
last promoted node wins. -/
def hoverVisit (pos : Nat) (best : Node) : Node → Node
  | n@(.mk _ _ _ _ _ _ _ cs) =>
    if pos < n.startPos ∨ n.endPos ≤ pos then best
    else hoverVisitL pos (if hoverPromotes pos n then n else best) cs

def hoverVisitL (pos : Nat) (best : Node) : Forest → Node
  | .nil => best
  | .cons c cs => hoverVisitL pos (hoverVisit pos best c) cs
end

/-- Source `findHoverableAncestor`: start from the smallest containing node and
re-walk from the root, promoting to call expressions and declarations whose
name token spans the offset. -/
def findHoverableAncestor (sf : SourceFile) (pos : Nat) : Option Node :=
  match findSmallestNodeAtPosition sf pos with
  | Option.none => Option.none
  | Option.some smallestNode => Option.some (hoverVisit pos smallestNode sf.root)

/-- The `lineLength` computed by `findNodeAtPosition` for an in-range
1-based line: distance from this line's start to the next line's start (or
to the file end for the last line). -/
def lineLengthAt (sf : SourceFile) (line : Int) : Nat :=
  let lineCount := sf.lineStarts.length
  let lineStart := sf.lineStarts.getD (line - 1).toNat 0
  let lineEnd := if line < (lineCount : Int) then sf.lineStarts.getD line.toNat 0 else sf.getEnd
  lineEnd - lineStart

/-- Source `findNodeAtPosition`: validate 1-based line/column bounds, convert to an
absolute offset, and delegate to `findHoverableAncestor`. -/
def findNodeAtPosition (sf : SourceFile) (line column : Int) : Option Node :=
  let lineCount := sf.lineStarts.length
  if line < 1 ∨ line > (lineCount : Int) then Option.none
  else
    let lineLength := lineLengthAt sf line
    if column < 1 ∨ column > (lineLength : Int) + 1 then Option.none
    else
      let pos := sf.lineStarts.getD (line - 1).toNat 0 + (column - 1).toNat
      findHoverableAncestor sf pos

/- ===== depth-first visit sequences (for the claim statements) ===== -/

mutual
/-- The depth-first pre-order node sequence of a subtree. -/
def preorder : Node → List Node
  | n@(.mk _ _ _ _ _ _ _ cs) => n :: preorderF cs

def preorderF : Forest → List Node
  | .nil => []
  | .cons c cs => preorder c ++ preorderF cs
end

mutual
/-- The nodes containing an offset, in the order the pruned depth-first
descent of the locator visits them (a node not containing the offset cuts
off its whole subtree, exactly as the early `return` of the source). -/
def containList (pos : Nat) : Node → List Node
  | n@(.mk _ _ _ _ _ _ _ cs) =>
    if pos < n.startPos ∨ n.endPos ≤ pos then []
    else n :: containListF pos cs

def containListF (pos : Nat) : Forest → List Node
  | .nil => []
  | .cons c cs => containList pos c ++ containListF pos cs
end

/-- One update step of the smallest-node search: a newly visited containing
node replaces the current best iff there is no best yet or its width is
`<=` the best's width (so an equal-width node found later wins). -/
def smallestStep (acc : Option Node) (n : Node) : Option Node :=
  match acc with
  | Option.none => Option.some n
  | Option.some r => if n.width ≤ r.width then Option.some n else Option.some r

/-- The smallest-node search the spec describes: identical to
`smallestStep`, except that a strictly narrower node is required to replace
the current best, so of two equal-width containing nodes the
earlier-found one is kept.  Modelled from the spec's words for comparison
with the source's `findSmallestNodeAtPosition`. -/
def specSmallestStepKeepEarlier (acc : Option Node) (n : Node) : Option Node :=
  match acc with
  | Option.none => Option.some n
  | Option.some r => if n.width < r.width then Option.some n else Option.some r

/-- The spec's variant of the smallest-node search, folding its tie rule
over the same depth-first visit sequence of containing nodes. -/
def specSmallestKeepEarlier (sf : SourceFile) (pos : Nat) : Option Node :=
  (containList pos sf.root).foldl specSmallestStepKeepEarlier Option.none

/- ===== src/core/hover.ts : symbol kind and name ===== -/

/-- Source `getSymbolKind`: map a node to its coarse symbol-kind string, following
the dispatch order of the source; a variable declaration whose initializer
is an arrow/function expression reports "function". -/
def getSymbolKind (node : Node) : String :=
  if node.kind = .functionDeclaration then "function"
  else if node.kind = .arrowFunction then "function"
  else if node.kind = .functionExpression then "function"
  else if node.kind = .methodDeclaration then "method"
  else if node.kind = .methodSignature then "method"
  else if node.kind = .variableDeclaration then
    (if isArrowOrFnExpr node.initNode then "function" else "variable")
  else if node.kind = .parameter then "parameter"
  else if node.kind = .propertyDeclaration then "property"
  else if node.kind = .propertySignature then "property"
  else if node.kind = .propertyAccessExpression then "property"
  else if node.kind = .callExpression then "call"
  else if node.kind = .typeAliasDeclaration then "type"
  else if node.kind = .interfaceDeclaration then "interface"
  else if node.kind = .classDeclaration then "class"
  else if node.kind = .identifier then "identifier"
  else "unknown"

/-- Source `getNodeName`: the declared or referenced identifier text, if any; for
call expressions, the callee's bare name or the final member of a
property-access callee. -/
def getNodeName (node : Node) : Option String :=
  if node.kind = .functionDeclaration ∧ node.nameNode.isSome = true then
    (match node.nameNode with
      | .some nm => Option.some nm.text
      | .none => Option.none)
  else if node.kind = .variableDeclaration ∧
      (match node.nameNode with
        | .some nm => nm.kind = .identifier
        | .none => False : Bool) = true then
    (match node.nameNode with
      | .some nm => Option.some nm.text
      | .none => Option.none)
  else if (node.kind = .methodDeclaration ∨ node.kind = .methodSignature) ∧
      (match node.nameNode with
        | .some nm => nm.kind = .identifier
        | .none => False : Bool) = true then
    (match node.nameNode with
      | .some nm => Option.some nm.text
      | .none => Option.none)
  else if node.kind = .propertyAccessExpression then
    (match node.nameNode with
      | .some nm => Option.some nm.text
      | .none => Option.none)
  else if node.kind = .callExpression then
    (match node.exprNode with
      | .some expr =>
        if expr.kind = .identifier then Option.some expr.text
        else if expr.kind = .propertyAccessExpression then
          (match expr.nameNode with
            | .some nm => Option.some nm.text
            | .none => Option.none)
        else Option.none
      | .none => Option.none)
  else if node.kind = .parameter ∧
      (match node.nameNode with
        | .some nm => nm.kind = .identifier
        | .none => False : Bool) = true then
    (match node.nameNode with
      | .some nm => Option.some nm.text
      | .none => Option.none)
  else if node.kind = .identifier then Option.some node.text
  else if node.kind = .typeAliasDeclaration ∨ node.kind = .interfaceDeclaration ∨
      node.kind = .classDeclaration then
    (match node.nameNode with
      | .some nm => Option.some nm.text
      | .none => Option.none)
  else Option.none

/- ===== the external type checker ===== -/

/-- An internal compiler error thrown by a checker operation (a JavaScript
`Error`: what the `catch` of `getHoverInfo` receives). -/
structure Err where
  message : String
deriving DecidableEq, Repr

/-- Abstract handle for a `ts.Signature`. -/
abbrev Sig := Nat

/-- Abstract handle for a `ts.Type`. -/
abbrev Ty := Nat

/-- Abstract handle for a `ts.Symbol`. -/
abbrev SymId := Nat

/-- The checker operations the extractor invokes.  Each returns
`Except Err` because any checker call may raise an internal compiler
error. -/
structure Checker where
  getResolvedSignature : Node → Except Err (Option Sig)
  signatureToString : Sig → Except Err String
  getReturnTypeOfSignature : Sig → Except Err Ty
  typeToString : Ty → Except Err String
  getTypeAtLocation : Node → Except Err Ty
  getSignatureFromDeclaration : Node → Except Err (Option Sig)
  getSymbolAtLocation : Node → Except Err (Option SymId)
  getDocComment : SymId → Except Err (List String)

/-- A checker none of whose operations throws. -/
structure PureChecker where
  getResolvedSignature : Node → Option Sig
  signatureToString : Sig → String
  getReturnTypeOfSignature : Sig → Ty
  typeToString : Ty → String
  getTypeAtLocation : Node → Ty
  getSignatureFromDeclaration : Node → Option Sig
  getSymbolAtLocation : Node → Option SymId
  getDocComment : SymId → List String

/-- View a non-throwing checker as a checker. -/
def PureChecker.lift (pc : PureChecker) : Checker where
  getResolvedSignature := fun n => .ok (pc.getResolvedSignature n)
  signatureToString := fun s => .ok (pc.signatureToString s)
  getReturnTypeOfSignature := fun s => .ok (pc.getReturnTypeOfSignature s)
  typeToString := fun t => .ok (pc.typeToString t)
  getTypeAtLocation := fun n => .ok (pc.getTypeAtLocation n)
  getSignatureFromDeclaration := fun n => .ok (pc.getSignatureFromDeclaration n)
  getSymbolAtLocation := fun n => .ok (pc.getSymbolAtLocation n)
  getDocComment := fun s => .ok (pc.getDocComment s)

/-- Source `getDocumentation`: flatten the symbol's documentation comment to plain
text (`displayPartsToString`), absent when there is no symbol or no
comment. -/
def getDocumentation (checker : Checker) (symbol : Option SymId) :
    Except Err (Option String) :=
  match symbol with
  | Option.none => .ok Option.none
  | Option.some s => do
    let docs ← checker.getDocComment s
    if docs.length = 0 then pure Option.none
    else pure (Option.some (String.join docs))

/-- Source `HoverResult`: signature, optional return type, 1-based line/column of
the node start, optional documentation, symbol kind, optional name. -/
structure HoverResult where
  signature : String
  returnType : Option String
  line : Nat
  column : Nat
  documentation : Option String
  kind : String
  name : Option String
deriving DecidableEq, Repr

/-- The node whose symbol `getHoverInfoImpl` looks up for documentation:
for a call, the callee (or the final member name of a property-access
callee); otherwise the node's `name` field when present, else the node
itself. -/
def symbolTargetOf (node : Node) : Node :=
  if node.kind = .callExpression then
    let expr := node.exprNode.getD node
    if expr.kind = .propertyAccessExpression then expr.nameNode.getD expr else expr
  else
    match node.nameNode with
    | .some nm => nm
    | .none => node

/-- The signature-producing dispatch of `getHoverInfoImpl` for non-call
nodes: function/method declarations and method signatures via
`getSignatureFromDeclaration` on the node; variable declarations and
property assignments with arrow/function-expression initializers via
`getSignatureFromDeclaration` on the initializer; nothing otherwise. -/
def declSignatureOf (checker : Checker) (node : Node) : Except Err (Option Sig) :=
  if node.kind = .functionDeclaration ∨ node.kind = .methodDeclaration then
    checker.getSignatureFromDeclaration node
  else if node.kind = .variableDeclaration then
    (match node.initNode with
      | .some init =>
        if isArrowOrFnExpr (.some init) then checker.getSignatureFromDeclaration init
        else pure Option.none
      | .none => pure Option.none)
  else if node.kind = .propertyAssignment then
    (match node.initNode with
      | .some init =>
        if isArrowOrFnExpr (.some init) then checker.getSignatureFromDeclaration init
        else pure Option.none
      | .none => pure Option.none)
  else if node.kind = .methodSignature then
    checker.getSignatureFromDeclaration node
  else pure Option.none

/-- The fallback target of `getHoverInfoImpl`: the node's name identifier
when it has one, else the node itself. -/
def fallbackTargetOf (node : Node) : Node :=
  match node.nameNode with
  | .some nm => if nm.kind = .identifier then nm else node
  | .none => node

/-- Source `getHoverInfoImpl`: compute kind and name, look up the symbol for
documentation, then dispatch — call expressions get the resolved (call-site
instantiated) signature with separately formatted return type, falling back
to the plain expression type of the call (without a return type) when
resolution fails; declarations get their declared signature; everything
else gets the type at the name identifier (or the node itself). -/
def getHoverInfoImpl (checker : Checker) (node : Node) (sourceFile : SourceFile)
    (includeDocs : Bool) : Except Err HoverResult := do
  let lc := lineCharOfPos sourceFile.lineStarts node.startPos
  let kind := getSymbolKind node
  let name := getNodeName node
  let symbol ← checker.getSymbolAtLocation (symbolTargetOf node)
  let documentation ← if includeDocs then getDocumentation checker symbol
    else pure Option.none
  if node.kind = .callExpression then
    match (← checker.getResolvedSignature node) with
    | Option.some sig => do
      let signature ← checker.signatureToString sig
      let ret ← checker.getReturnTypeOfSignature sig
      let returnType ← checker.typeToString ret
      pure { signature := signature, returnType := Option.some returnType,
             line := lc.1 + 1, column := lc.2 + 1,
             documentation := documentation, kind := kind, name := name }
    | Option.none => do
      let t ← checker.getTypeAtLocation node
      let s ← checker.typeToString t
      pure { signature := s, returnType := Option.none,
             line := lc.1 + 1, column := lc.2 + 1,
             documentation := documentation, kind := kind, name := name }
  else
    match (← declSignatureOf checker node) with
    | Option.some sig => do
      let signature ← checker.signatureToString sig
      let ret ← checker.getReturnTypeOfSignature sig
      let returnType ← checker.typeToString ret
      pure { signature := signature, returnType := Option.some returnType,
             line := lc.1 + 1, column := lc.2 + 1,
             documentation := documentation, kind := kind, name := name }
    | Option.none => do
      let t ← checker.getTypeAtLocation (fallbackTargetOf node)
      let s ← checker.typeToString t
      pure { signature := s, returnType := Option.none,
             line := lc.1 + 1, column := lc.2 + 1,
             documentation := documentation, kind := kind, name := name }

/- ===== src/errors.ts ===== -/

/-- ASCII lower-casing of a string (what `toLowerCase` does on the
checker's ASCII error messages). -/
def toLowerStr (s : String) : String := String.mk (s.data.map Char.toLower)

/-- Containment of a character sequence in another. -/
def seqContains (pat : List Char) : List Char → Bool
  | [] => pat.isEmpty
  | c :: t => pat.isPrefixOf (c :: t) || seqContains pat t

/-- JavaScript `String.prototype.includes` for a non-empty pattern:
substring containment. -/
def strIncludes (s pat : String) : Bool := seqContains pat.data s.data

/-- The remediation hints appended for internal consistency failures. -/
def debugFailureHints : String :=
  "\n\nPossible fixes:\n  - Try a different position\n  - Check for syntax errors\n  - Ensure tsconfig includes this file"

/-- Source `getSuggestions`: remediation hints when the underlying message
indicates an internal consistency failure ("debug failure"), else empty. -/
def getSuggestions (error : Err) : String :=
  if strIncludes (toLowerStr error.message) "debug failure" then debugFailureHints
  else ""

/-- Source `TypeScriptInternalError`: the single taxonomy member wrapping a
checker-internal failure, carrying file, best-effort line/column, the
attempted operation, the original cause, and the composed message. -/
structure TypeScriptInternalError where
  file : String
  line : Option Nat
  column : Option Nat
  operation : String
  cause : Err
  message : String
deriving DecidableEq, Repr

/-- The constructor logic of `TypeScriptInternalError`: position rendered
as `file:line:column` when a (truthy) line is given, else just the file
(`opts.column ?? 1` defaults a missing column to 1), with the cause's
message and the suggestion suffix composed into the wrapped message. -/
def mkTypeScriptInternalError (file : String) (line column : Option Nat)
    (operation : String) (cause : Err) : TypeScriptInternalError :=
  let pos := match line with
    | Option.some l =>
      if l ≠ 0 then file ++ ":" ++ toString l ++ ":" ++ toString (column.getD 1)
      else file
    | Option.none => file
  { file := file, line := line, column := column, operation := operation,
    cause := cause,
    message := "TypeScript error while " ++ operation ++ " at " ++ pos ++ ": "
      ++ cause.message ++ getSuggestions cause }

/-- Source `getHoverInfo`: run the extractor and re-raise any internal compiler
error as a `TypeScriptInternalError` carrying the file, the node's 1-based
line/column, and the attempted operation. -/
def getHoverInfo (checker : Checker) (node : Node) (sourceFile : SourceFile)
    (includeDocs : Bool) : Except TypeScriptInternalError HoverResult :=
  let lc := lineCharOfPos sourceFile.lineStarts node.startPos
  match getHoverInfoImpl checker node sourceFile includeDocs with
  | .ok r => .ok r
  | .error e =>
    .error (mkTypeScriptInternalError sourceFile.fileName (Option.some (lc.1 + 1))
      (Option.some (lc.2 + 1)) "getting type information" e)

/- ===== src/core/type-info.ts ===== -/

/-- Source `InferredTypeResult`: signature, optional return type, 1-based line. -/
structure InferredTypeResult where
  signature : String
  returnType : Option String
  line : Nat
deriving DecidableEq, Repr

/-- Source `getTypeInfo`: the name-lookup extractor — the same dispatch as
`getHoverInfoImpl` (call expressions get the resolved call-site signature
with separate return type, falling back to the expression type without a
return type; declarations get their declared signature; fallback takes the
type at the name identifier), without symbol-kind/name/documentation. -/
def getTypeInfo (checker : Checker) (node : Node) (sourceFile : SourceFile) :
    Except Err InferredTypeResult := do
  let line := getLineNumber sourceFile node
  if node.kind = .callExpression then
    match (← checker.getResolvedSignature node) with
    | Option.some sig => do
      let signature ← checker.signatureToString sig
      let ret ← checker.getReturnTypeOfSignature sig
      let returnType ← checker.typeToString ret
      pure { signature := signature, returnType := Option.some returnType, line := line }
    | Option.none => do
      let t ← checker.getTypeAtLocation node
      let s ← checker.typeToString t
      pure { signature := s, returnType := Option.none, line := line }
  else
    match (← declSignatureOf checker node) with
    | Option.some sig => do
      let signature ← checker.signatureToString sig
      let ret ← checker.getReturnTypeOfSignature sig
      let returnType ← checker.typeToString ret
      pure { signature := signature, returnType := Option.some returnType, line := line }
    | Option.none => do
      let t ← checker.getTypeAtLocation (fallbackTargetOf node)
      let s ← checker.typeToString t
      pure { signature := s, returnType := Option.none, line := line }

/- ===== src/index.ts ===== -/

/-- Options of the position-based lookups (`HoverOptions`). -/
structure HoverOptions where
  project : Option String
  include_docs : Bool
deriving Repr

/-- A type-checked program: its checker and its parsed source files
(`program.getTypeChecker()` / `program.getSourceFile(path)`). -/
structure Program where
  checker : Checker
  sourceFileOf : String → Option SourceFile

/-- The ambient file system and program loader the public API runs
against: `path.resolve(process.cwd(), file)`, `fs.existsSync`, and
`loadProgram` (which may throw a config-parse error). -/
structure Env where
  resolvePath : String → String
  fileExists : String → Bool
  loadProgram : String → Option String → Except Err Program

/-- The failure conditions of the public entry points, one per distinct
`throw` site of src/index.ts: missing file, unparsable project config
(propagated from `loadProgram`), entry file absent from the program,
no node at the requested position, no node with the requested name, and a
wrapped checker-internal failure. -/
inductive LookupError where
  | fileNotFound (path : String)
  | configError (e : Err)
  | sourceFileNotLoaded (path : String)
  | positionNotFound (path : String) (line column : Int)
  | symbolNotFound (file name : String) (line : Option Int)
  | internalError (e : TypeScriptInternalError)
deriving Repr

/-- Source `hoverByPositionImpl`: resolve the file, require it to exist, load the
program, require the source file, locate the node at the position (failing
with the position-not-found condition when absent), and extract. -/
def hoverByPositionImpl (env : Env) (file : String) (line column : Int)
    (options : HoverOptions) : Except LookupError HoverResult :=
  let entryFileAbs := env.resolvePath file
  if env.fileExists entryFileAbs = false then .error (.fileNotFound entryFileAbs)
  else
    match env.loadProgram entryFileAbs options.project with
    | .error e => .error (.configError e)
    | .ok program =>
      match program.sourceFileOf entryFileAbs with
      | Option.none => .error (.sourceFileNotLoaded entryFileAbs)
      | Option.some sourceFile =>
        match findNodeAtPosition sourceFile line column with
        | Option.none => .error (.positionNotFound entryFileAbs line column)
        | Option.some node =>
          match getHoverInfo program.checker node sourceFile options.include_docs with
          | .ok r => .ok r
          | .error e => .error (.internalError e)

/-- A position of a batch lookup. -/
structure HoverPosition where
  line : Int
  column : Int
deriving DecidableEq, Repr

/-- One entry of a batch result: the input position with either a result
or an error string. -/
structure BatchHoverItem where
  position : HoverPosition
  result : Option HoverResult
  error : Option String
deriving DecidableEq, Repr

/-- A batch result: one item per input position plus success/error
counts. -/
structure BatchHoverResult where
  items : List BatchHoverItem
  successCount : Nat
  errorCount : Nat
deriving DecidableEq, Repr

/-- The loop body of `batchHover` for one position: locate the node
(capturing a "No symbol at line:column" error string when absent), extract
(capturing the wrapped error's message when extraction throws), and record
either the result or the error alongside the position. -/
def processPosition (program : Program) (sourceFile : SourceFile)
    (include_docs : Bool) (pos : HoverPosition) : BatchHoverItem :=
  match findNodeAtPosition sourceFile pos.line pos.column with
  | Option.none =>
    { position := pos, result := Option.none,
      error := Option.some ("No symbol at " ++ toString pos.line ++ ":" ++ toString pos.column) }
  | Option.some node =>
    match getHoverInfo program.checker node sourceFile include_docs with
    | .ok r => { position := pos, result := Option.some r, error := Option.none }
    | .error e => { position := pos, result := Option.none, error := Option.some e.message }

/-- JavaScript truthiness of an item's `result` field (an object: truthy
iff present), as tested by the `successCount` filter. -/
def itemResultTruthy (i : BatchHoverItem) : Bool := i.result.isSome

/-- JavaScript truthiness of an item's `error` field (a string: truthy iff
present and non-empty), as tested by the `errorCount` filter. -/
def itemErrorTruthy (i : BatchHoverItem) : Bool :=
  match i.error with
  | Option.some s => s ≠ ""
  | Option.none => false

/-- Source `batchHover`: resolve and require the file, load the program once,
require the source file, then process every position independently in
input order, counting items with truthy results and truthy errors.  The
second component counts the `loadProgram` invocations performed. -/
def batchHover (env : Env) (file : String) (positions : List HoverPosition)
    (options : HoverOptions) : Except LookupError BatchHoverResult × Nat :=
  let entryFileAbs := env.resolvePath file
  if env.fileExists entryFileAbs = false then (.error (.fileNotFound entryFileAbs), 0)
  else
    match env.loadProgram entryFileAbs options.project with
    | .error e => (.error (.configError e), 1)
    | .ok program =>
      match program.sourceFileOf entryFileAbs with
      | Option.none => (.error (.sourceFileNotLoaded entryFileAbs), 1)
      | Option.some sourceFile =>
        let items := positions.map (processPosition program sourceFile options.include_docs)
        (.ok { items := items,
               successCount := (items.filter itemResultTruthy).length,
               errorCount := (items.filter itemErrorTruthy).length }, 1)

/- ===== traversal characterization lemmas ===== -/

mutual
theorem smallestVisit_eq_foldl (pos : Nat) :
    ∀ (acc : Option Node) (n : Node),
      smallestVisit pos acc n = (containList pos n).foldl smallestStep acc
  | acc, .mk k s e t nm i x cs => by
    rw [smallestVisit.eq_def, containList]
    dsimp only
    by_cases h : pos < (Node.mk k s e t nm i x cs).startPos ∨
        (Node.mk k s e t nm i x cs).endPos ≤ pos
    · simp [h]
    · rw [if_neg h, if_neg h, smallestVisitL_eq_foldl pos _ cs, List.foldl_cons]
      rfl

theorem smallestVisitL_eq_foldl (pos : Nat) :
    ∀ (acc : Option Node) (f : Forest),
      smallestVisitL pos acc f = (containListF pos f).foldl smallestStep acc
  | acc, .nil => by rw [smallestVisitL, containListF]; rfl
  | acc, .cons c cs => by
    rw [smallestVisitL, containListF, List.foldl_append,
      smallestVisit_eq_foldl pos acc c, smallestVisitL_eq_foldl pos _ cs]
end

mutual
theorem mem_containList (pos : Nat) :
    ∀ (n m : Node), m ∈ containList pos n → m.startPos ≤ pos ∧ pos < m.endPos
  | .mk k s e t nm i x cs, m => by
    rw [containList]
    by_cases h : pos < (Node.mk k s e t nm i x cs).startPos ∨
        (Node.mk k s e t nm i x cs).endPos ≤ pos
    · simp [h]
    · rw [if_neg h]
      intro hm
      rcases List.mem_cons.mp hm with rfl | hm
      · push_neg at h; exact ⟨h.1, h.2⟩
      · exact mem_containListF pos cs m hm

theorem mem_containListF (pos : Nat) :
    ∀ (f : Forest) (m : Node), m ∈ containListF pos f → m.startPos ≤ pos ∧ pos < m.endPos
  | .nil, m => by rw [containListF]; intro hm; cases hm
  | .cons c cs, m => by
    rw [containListF]
    intro hm
    rcases List.mem_append.mp hm with hm | hm
    · exact mem_containList pos c m hm
    · exact mem_containListF pos cs m hm
end

theorem smallestStep_some (acc : Option Node) (n : Node) :
    ∃ m, smallestStep acc n = Option.some m := by
  cases acc with
  | none => exact ⟨n, rfl⟩
  | some r =>
    by_cases h : n.width ≤ r.width
    · exact ⟨n, by simp [smallestStep, h]⟩
    · exact ⟨r, by simp [smallestStep, h]⟩

theorem foldl_smallestStep_mem :
    ∀ (l : List Node) (acc : Option Node) (n : Node),
      l.foldl smallestStep acc = Option.some n → n ∈ l ∨ acc = Option.some n
  | [], acc, n => by intro h; exact Or.inr h
  | m :: l, acc, n => by
    intro h
    rw [List.foldl_cons] at h
    rcases foldl_smallestStep_mem l (smallestStep acc m) n h with hmem | hacc
    · exact Or.inl (List.mem_cons_of_mem _ hmem)
    · cases acc with
      | none =>
        simp [smallestStep] at hacc
        exact Or.inl (hacc ▸ List.mem_cons_self _ _)
      | some r =>
        by_cases hw : m.width ≤ r.width
        · simp [smallestStep, hw] at hacc
          exact Or.inl (hacc ▸ List.mem_cons_self _ _)
        · simp [smallestStep, hw] at hacc
          exact Or.inr (congrArg Option.some hacc)

theorem foldl_smallestStep_min :
    ∀ (l : List Node) (acc : Option Node) (n : Node),
      l.foldl smallestStep acc = Option.some n →
      (∀ m ∈ l, n.width ≤ m.width) ∧ (∀ a, acc = Option.some a → n.width ≤ a.width)
  | [], acc, n => by
    intro h
    simp only [List.foldl_nil] at h
    exact ⟨fun m hm => absurd hm (List.not_mem_nil m), fun a ha => by
      rw [h] at ha; cases ha; exact Nat.le_refl _⟩
  | m :: l, acc, n => by
    intro h
    rw [List.foldl_cons] at h
    obtain ⟨hl, hacc2⟩ := foldl_smallestStep_min l (smallestStep acc m) n h
    have hm : n.width ≤ m.width := by
      cases acc with
      | none => exact hacc2 m rfl
      | some r =>
        by_cases hw : m.width ≤ r.width
        · exact hacc2 m (by simp [smallestStep, hw])
        · have := hacc2 r (by simp [smallestStep, hw])
          exact Nat.le_trans this (Nat.le_of_lt (Nat.lt_of_not_le hw))
    refine ⟨fun x hx => ?_, fun a ha => ?_⟩
    · rcases List.mem_cons.mp hx with rfl | hx
      · exact hm
      · exact hl x hx
    · cases acc with
      | none => cases ha
      | some r =>
        cases ha
        by_cases hw : m.width ≤ a.width
        · exact Nat.le_trans (hacc2 m (by simp [smallestStep, hw])) (Nat.le_trans hw (Nat.le_refl _))
        · exact hacc2 a (by simp [smallestStep, hw])

theorem foldl_smallestStep_last :
    ∀ (l : List Node) (acc : Option Node) (n : Node),
      l.foldl smallestStep acc = Option.some n →
      (l.filter (fun m => m.width = n.width)).getLast? = Option.some n ∨
        ((l.filter (fun m => m.width = n.width)) = [] ∧ acc = Option.some n)
  | [], acc, n => by intro h; exact Or.inr ⟨rfl, h⟩
  | m :: l, acc, n => by
    intro h
    rw [List.foldl_cons] at h
    have hmin := foldl_smallestStep_min l (smallestStep acc m) n h
    rcases foldl_smallestStep_last l (smallestStep acc m) n h with hlast | ⟨hemp, hacc⟩
    · -- the tail's filtered list already ends in n
      by_cases hw : m.width = n.width
      · rw [List.filter_cons_of_pos (by simp [hw])]
        left
        rw [List.getLast?_cons]
        have : (l.filter (fun m => m.width = n.width)) ≠ [] := by
          intro h0; rw [h0] at hlast; cases hlast
        cases hfl : l.filter (fun m => m.width = n.width) with
        | nil => exact absurd hfl this
        | cons y ys =>
          rw [hfl] at hlast
          simp [List.getLast?_cons] at hlast ⊢
          exact hlast
      · rw [List.filter_cons_of_neg (by simp [hw])]
        exact Or.inl hlast
    · -- the tail's filtered list is empty, so the step's output was n
      by_cases hw : m.width = n.width
      · rw [List.filter_cons_of_pos (by simp [hw]), hemp]
        left
        cases acc with
        | none =>
          simp [smallestStep] at hacc
          simp [hacc]
        | some r =>
          by_cases hw2 : m.width ≤ r.width
          · simp [smallestStep, hw2] at hacc
            simp [hacc]
          · simp [smallestStep, hw2] at hacc
            exact absurd (by rw [hacc, ← hw] : m.width ≤ r.width) hw2
      · rw [List.filter_cons_of_neg (by simp [hw]), hemp]
        cases acc with
        | none =>
          simp [smallestStep] at hacc
          exact absurd (congrArg Node.width hacc) hw
        | some r =>
          by_cases hw2 : m.width ≤ r.width
          · simp [smallestStep, hw2] at hacc
            exact absurd (congrArg Node.width hacc) hw
          · simp [smallestStep, hw2] at hacc
            exact Or.inr ⟨rfl, congrArg Option.some hacc⟩

theorem getLast?_cons_getD {α : Type} (a : α) (l : List α) :
    (a :: l).getLast? = Option.some (l.getLast?.getD a) := by
  induction l generalizing a with
  | nil => rfl
  | cons y ys ih =>
    rw [List.getLast?_cons_cons, ih y]
    rfl

theorem getLast?_getD_append {α : Type} (l1 l2 : List α) (b : α) :
    (l1 ++ l2).getLast?.getD b = l2.getLast?.getD (l1.getLast?.getD b) := by
  cases l2 with
  | nil => simp
  | cons y ys =>
    rw [List.getLast?_append_cons, getLast?_cons_getD y ys]
    rfl

mutual
theorem hoverVisit_eq_getLast (pos : Nat) :
    ∀ (best : Node) (n : Node),
      hoverVisit pos best n =
        (((containList pos n).filter (hoverPromotes pos)).getLast?).getD best
  | best, .mk k s e t nm i x cs => by
    rw [hoverVisit.eq_def, containList]
    dsimp only
    by_cases h : pos < (Node.mk k s e t nm i x cs).startPos ∨
        (Node.mk k s e t nm i x cs).endPos ≤ pos
    · simp [h]
    · rw [if_neg h, if_neg h, hoverVisitL_eq_getLast pos _ cs]
      by_cases hp : hoverPromotes pos (Node.mk k s e t nm i x cs)
      · rw [if_pos hp, List.filter_cons_of_pos (by simpa using hp),
          getLast?_cons_getD]
        rfl
      · rw [if_neg hp, List.filter_cons_of_neg (by simpa using hp)]

theorem hoverVisitL_eq_getLast (pos : Nat) :
    ∀ (best : Node) (f : Forest),
      hoverVisitL pos best f =
        (((containListF pos f).filter (hoverPromotes pos)).getLast?).getD best
  | best, .nil => by rw [hoverVisitL, containListF]; rfl
  | best, .cons c cs => by
    rw [hoverVisitL, containListF, List.filter_append, getLast?_getD_append,
      hoverVisit_eq_getLast pos best c, hoverVisitL_eq_getLast pos _ cs]
end

/-- The match predicate of the name lookup: declaration-or-call match for
the name, plus the optional line filter. -/
def nameMatchPred (sf : SourceFile) (name : String) (line : Option Int) (m : Node) : Bool :=
  (isNamedNode m name || isCallExpressionNamed m name) && matchesLine sf line m

mutual
theorem findByNameVisit_eq_find? (sf : SourceFile) (name : String) (line : Option Int) :
    ∀ (n : Node),
      findByNameVisit sf name line n = (preorder n).find? (nameMatchPred sf name line)
  | .mk k s e t nm i x cs => by
    rw [findByNameVisit.eq_def, preorder]
    dsimp only
    by_cases h1 : (isNamedNode (Node.mk k s e t nm i x cs) name &&
        matchesLine sf line (Node.mk k s e t nm i x cs)) = true
    · rw [if_pos h1, List.find?_cons_of_pos _ (by
        simp only [nameMatchPred, Bool.and_eq_true, Bool.or_eq_true] at h1 ⊢
        exact ⟨Or.inl h1.1, h1.2⟩)]
    · rw [if_neg h1]
      by_cases h2 : (isCallExpressionNamed (Node.mk k s e t nm i x cs) name &&
          matchesLine sf line (Node.mk k s e t nm i x cs)) = true
      · rw [if_pos h2, List.find?_cons_of_pos _ (by
          simp only [nameMatchPred, Bool.and_eq_true, Bool.or_eq_true] at h2 ⊢
          exact ⟨Or.inr h2.1, h2.2⟩)]
      · rw [if_neg h2, List.find?_cons_of_neg _ (by
          simp only [nameMatchPred, Bool.and_eq_true, Bool.or_eq_true] at h1 h2 ⊢
          intro ⟨hab, hl⟩
          rcases hab with ha | hb
          · exact h1 ⟨ha, hl⟩
          · exact h2 ⟨hb, hl⟩)]
        exact findByNameVisitL_eq_find? sf name line cs

theorem findByNameVisitL_eq_find? (sf : SourceFile) (name : String) (line : Option Int) :
    ∀ (f : Forest),
      findByNameVisitL sf name line f = (preorderF f).find? (nameMatchPred sf name line)
  | .nil => by rw [findByNameVisitL, preorderF]; rfl
  | .cons c cs => by
    rw [findByNameVisitL, preorderF, List.find?_append,
      findByNameVisit_eq_find? sf name line c, findByNameVisitL_eq_find? sf name line cs]
    cases (preorder c).find? (nameMatchPred sf name line) with
    | none => rfl
    | some r => rfl
end

theorem append_ne_empty_left (p s : String) (hp : p ≠ "") : (p ++ s) ≠ "" := by
  intro h
  have hl0 := congrArg String.length h
  rw [String.length_append] at hl0
  have hl : p.length + s.length = 0 := hl0.trans rfl
  have hp0 : p.length = 0 := by omega
  exact hp (by
    cases p with
    | mk data =>
      cases data with
      | nil => rfl
      | cons c cs => simp [String.length, List.length] at hp0)

/- ===== concrete example trees (used by witnesses and counterexamples) ===== -/

/-- An identifier spanning the whole file, equal in width to the root. -/
def exEqChild : Node := .mk .identifier 0 5 "x" .none .none .none .nil

/-- A root node of the same width as its only child. -/
def exEqRoot : Node := .mk .other 0 5 "" .none .none .none (.cons exEqChild .nil)

/-- A one-line source file whose root and single child have equal width. -/
def exEqSf : SourceFile := ⟨"eq.ts", [0], exEqRoot⟩

/-- The callee identifier `foo` of the example call. -/
def exCalleeId : Node := .mk .identifier 0 3 "foo" .none .none .none .nil

/-- A numeric argument of the example call. -/
def exArg : Node := .mk .numericLiteral 4 5 "1" .none .none .none .nil

/-- The call expression `foo(1)`. -/
def exCall : Node :=
  .mk .callExpression 0 6 "" .none .none (.some exCalleeId)
    (.cons exCalleeId (.cons exArg .nil))

/-- A source-file root holding the example call. -/
def exCallRoot : Node := .mk .sourceFileNode 0 6 "" .none .none .none (.cons exCall .nil)

/-- A one-line source file containing `foo(1)`. -/
def exCallSf : SourceFile := ⟨"call.ts", [0], exCallRoot⟩

/-- The arrow-function initializer of the example variable. -/
def exArrowInit : Node := .mk .arrowFunction 17 40 "" .none .none .none .nil

/-- The identifier `multiply`. -/
def exMultiplyId : Node := .mk .identifier 6 14 "multiply" .none .none .none .nil

/-- The variable declaration `multiply = (x, y) => x * y` whose initializer
is an arrow function. -/
def exMultiplyVar : Node :=
  .mk .variableDeclaration 6 40 "" (.some exMultiplyId) (.some exArrowInit) .none
    (.cons exMultiplyId (.cons exArrowInit .nil))

/-- An error with a message indicating an internal consistency failure. -/
def exDebugErr : Err := ⟨"Debug Failure. False expression."⟩

/-- A checker whose symbol lookup raises an internal compiler error. -/
def exThrowChecker : Checker where
  getResolvedSignature := fun _ => .ok Option.none
  signatureToString := fun _ => .ok ""
  getReturnTypeOfSignature := fun _ => .ok 0
  typeToString := fun _ => .ok ""
  getTypeAtLocation := fun _ => .ok 0
  getSignatureFromDeclaration := fun _ => .ok Option.none
  getSymbolAtLocation := fun _ => .error exDebugErr
  getDocComment := fun _ => .ok []

/-- A checker none of whose operations the examples make fail. -/
def exOkPure : PureChecker where
  getResolvedSignature := fun _ => Option.some 7
  signatureToString := fun s => "sig" ++ toString s
  getReturnTypeOfSignature := fun s => s + 1
  typeToString := fun t => "ty" ++ toString t
  getTypeAtLocation := fun _ => 3
  getSignatureFromDeclaration := fun _ => Option.none
  getSymbolAtLocation := fun _ => Option.none
  getDocComment := fun _ => []

/-- The example program: the lifted non-throwing checker plus the equal
width example file. -/
def exProgram : Program where
  checker := exOkPure.lift
  sourceFileOf := fun _ => Option.some exEqSf

/-- The example environment: identity path resolution, every file present,
loading always yields the example program. -/
def exEnv : Env where
  resolvePath := fun s => s
  fileExists := fun _ => true
  loadProgram := fun _ _ => .ok exProgram

/-- Example options: no project, no docs. -/
def exOptions : HoverOptions := ⟨Option.none, false⟩

/- ===== C8 ===== -/

/-- C8: the symbol-kind classifier maps every node to one of exactly the
eleven kind strings, and a variable declaration whose initializer is an
arrow function or function expression is classified "function", not
"variable". -/
theorem getSymbolKind_classification (n : Node) :
    getSymbolKind n ∈ ["function", "method", "variable", "parameter", "property",
      "call", "type", "interface", "class", "identifier", "unknown"] ∧
    (n.kind = .variableDeclaration → isArrowOrFnExpr n.initNode = true →
      getSymbolKind n = "function") := by
  constructor
  · cases hk : n.kind <;> simp [getSymbolKind, hk] <;>
      by_cases hi : isArrowOrFnExpr n.initNode = true <;> simp [hi]
  · intro h1 h2
    simp [getSymbolKind, h1, h2]

/-- C8 witness: the example variable declaration with an arrow-function
initializer is classified "function". -/
theorem getSymbolKind_classification_witness :
    getSymbolKind exMultiplyVar = "function" :=
  (getSymbolKind_classification exMultiplyVar).2 rfl rfl

/- ===== C4 ===== -/

/-- C4: name-based lookup equals the first match, in depth-first pre-order
over the tree, of the predicate "declaration match for the name, or
call-expression match for the name, on the requested line (when given)";
traversal stops at the first match and the result is absent when nothing
matches. -/
theorem findNodeByNameAndLine_first_preorder_match (sf : SourceFile) (name : String)
    (line : Option Int) :
    findNodeByNameAndLine sf name line =
      (preorder sf.root).find? (fun m =>
        (isNamedNode m name || isCallExpressionNamed m name) && matchesLine sf line m) :=
  findByNameVisit_eq_find? sf name line sf.root

/- ===== C2 (corrected) ===== -/

/-- C2 counterexample: at offset 2 of the equal-width example file the
depth-first search visits the root first and its equal-width child second;
the claim's tie rule ("keep the earlier-found node") would keep the root,
but the source's `<=` comparison replaces it, returning the later-found
child. -/
theorem findSmallest_tie_keeps_later_found :
    containList 2 exEqSf.root = [exEqRoot, exEqChild] ∧
    exEqRoot.width = exEqChild.width ∧
    findSmallestNodeAtPosition exEqSf 2 = Option.some exEqChild ∧
    specSmallestKeepEarlier exEqSf 2 = Option.some exEqRoot ∧
    exEqChild.kind ≠ exEqRoot.kind :=
  ⟨rfl, rfl, rfl, rfl, by decide⟩

/-- C2 (amended): the smallest-node search equals folding, over the
depth-first visit sequence of offset-containing nodes (non-containing
nodes prune their subtrees), the step that replaces the current best
whenever the new node's width is `<=` the best's; consequently any
returned node is a containing node of minimal width, and among containing
nodes of that width it is the last-found one (innermost-wins), not the
earlier-found one. -/
theorem findSmallestNodeAtPosition_spec (sf : SourceFile) (pos : Nat) :
    findSmallestNodeAtPosition sf pos =
      (containList pos sf.root).foldl smallestStep Option.none ∧
    ∀ n, findSmallestNodeAtPosition sf pos = Option.some n →
      n ∈ containList pos sf.root ∧
      (n.startPos ≤ pos ∧ pos < n.endPos) ∧
      (∀ m ∈ containList pos sf.root, n.width ≤ m.width) ∧
      ((containList pos sf.root).filter (fun m => m.width = n.width)).getLast? =
        Option.some n := by
  have heq : findSmallestNodeAtPosition sf pos =
      (containList pos sf.root).foldl smallestStep Option.none :=
    smallestVisit_eq_foldl pos Option.none sf.root
  refine ⟨heq, fun n hn => ?_⟩
  rw [heq] at hn
  have hmem : n ∈ containList pos sf.root := by
    rcases foldl_smallestStep_mem _ _ _ hn with h | h
    · exact h
    · cases h
  have hcontains := mem_containList pos sf.root n hmem
  have hmin := (foldl_smallestStep_min _ _ _ hn).1
  have hlast : ((containList pos sf.root).filter
      (fun m => m.width = n.width)).getLast? = Option.some n := by
    rcases foldl_smallestStep_last _ _ _ hn with h | ⟨_, h⟩
    · exact h
    · cases h
  exact ⟨hmem, hcontains, hmin, hlast⟩

/-- C2 witness: at offset 2 of the equal-width example file the returned
child is a containing node of minimal width and the last-found node of
that width. -/
theorem findSmallestNodeAtPosition_spec_witness :
    exEqChild ∈ containList 2 exEqSf.root ∧
    (∀ m ∈ containList 2 exEqSf.root, exEqChild.width ≤ m.width) ∧
    ((containList 2 exEqSf.root).filter
      (fun m => m.width = exEqChild.width)).getLast? = Option.some exEqChild := by
  have h := (findSmallestNodeAtPosition_spec exEqSf 2).2 exEqChild rfl
  exact ⟨h.1, h.2.2.1, h.2.2.2⟩

theorem findSmallest_some_contains (sf : SourceFile) (pos : Nat) (n : Node)
    (h : findSmallestNodeAtPosition sf pos = Option.some n) :
    n.startPos ≤ pos ∧ pos < n.endPos := by
  rw [findSmallestNodeAtPosition, smallestVisit_eq_foldl] at h
  rcases foldl_smallestStep_mem _ _ _ h with hm | hm
  · exact mem_containList pos sf.root n hm
  · cases hm

theorem findHoverableAncestor_some_contains (sf : SourceFile) (pos : Nat) (n : Node)
    (h : findHoverableAncestor sf pos = Option.some n) :
    n.startPos ≤ pos ∧ pos < n.endPos := by
  rw [findHoverableAncestor] at h
  cases hsm : findSmallestNodeAtPosition sf pos with
  | none => rw [hsm] at h; cases h
  | some sm =>
    rw [hsm] at h
    have hn : hoverVisit pos sm sf.root = n := by
      cases h; rfl
    rw [hoverVisit_eq_getLast] at hn
    cases hgl : ((containList pos sf.root).filter (hoverPromotes pos)).getLast? with
    | none =>
      rw [hgl] at hn
      exact hn ▸ findSmallest_some_contains sf pos sm hsm
    | some m =>
      rw [hgl] at hn
      have hmem := List.mem_of_getLast?_eq_some hgl
      have := (List.mem_filter.mp hmem).1
      exact hn ▸ mem_containList pos sf.root m this

/- ===== C10 ===== -/

/-- C10: whenever position lookup returns a node for an in-bounds
(line, column), the node's character range contains the absolute offset
computed from that line and column — ancestor promotion only ever replaces
the match with a node still enclosing the queried offset. -/
theorem findNodeAtPosition_result_contains (sf : SourceFile) (line column : Int)
    (n : Node) (h : findNodeAtPosition sf line column = Option.some n) :
    n.startPos ≤ sf.lineStarts.getD (line - 1).toNat 0 + (column - 1).toNat ∧
    sf.lineStarts.getD (line - 1).toNat 0 + (column - 1).toNat < n.endPos := by
  rw [findNodeAtPosition] at h
  by_cases h1 : line < 1 ∨ line > (sf.lineStarts.length : Int)
  · rw [if_pos h1] at h; cases h
  · rw [if_neg h1] at h
    by_cases h2 : column < 1 ∨ column > ((lineLengthAt sf line : Int) + 1)
    · rw [if_pos h2] at h; cases h
    · rw [if_neg h2] at h
      exact findHoverableAncestor_some_contains sf _ n h

/-- C10 witness: looking up line 1, column 3 of the equal-width example
file returns the child identifier, whose range contains offset 2. -/
theorem findNodeAtPosition_result_contains_witness :
    exEqChild.startPos ≤ exEqSf.lineStarts.getD ((1 : Int) - 1).toNat 0 + ((3 : Int) - 1).toNat ∧
    exEqSf.lineStarts.getD ((1 : Int) - 1).toNat 0 + ((3 : Int) - 1).toNat < exEqChild.endPos :=
  findNodeAtPosition_result_contains exEqSf 1 3 exEqChild rfl

/- ===== C5 ===== -/

/-- C5: when a smallest containing node exists, ancestor widening returns
the last (innermost along the pruned depth-first walk) offset-containing
node satisfying a promotion rule, defaulting to the smallest node when no
rule matches; and a call expression whose callee identifier (or final
member name of a property-access callee) spans the offset, as well as a
function/class/interface declaration, variable declaration, or method
declaration/signature whose name token spans the offset, satisfies the
promotion predicate. -/
theorem findHoverableAncestor_promotion (sf : SourceFile) (pos : Nat) (sm : Node)
    (hsm : findSmallestNodeAtPosition sf pos = Option.some sm) :
    findHoverableAncestor sf pos =
      Option.some ((((containList pos sf.root).filter (hoverPromotes pos)).getLast?).getD sm) ∧
    (∀ n e, n.kind = .callExpression → n.exprNode = .some e → e.kind = .identifier →
      e.startPos ≤ pos → pos < e.endPos → hoverPromotes pos n = true) ∧
    (∀ n e nm, n.kind = .callExpression → n.exprNode = .some e →
      e.kind = .propertyAccessExpression → e.nameNode = .some nm →
      nm.startPos ≤ pos → pos < nm.endPos → hoverPromotes pos n = true) ∧
    (∀ n nm, (n.kind = .functionDeclaration ∨ n.kind = .classDeclaration ∨
        n.kind = .interfaceDeclaration) → n.nameNode = .some nm →
      nm.startPos ≤ pos → pos < nm.endPos → hoverPromotes pos n = true) ∧
    (∀ n nm, (n.kind = .variableDeclaration ∨ n.kind = .methodDeclaration ∨
        n.kind = .methodSignature) → n.nameNode = .some nm → nm.kind = .identifier →
      nm.startPos ≤ pos → pos < nm.endPos → hoverPromotes pos n = true) := by
  refine ⟨?_, ?_, ?_, ?_, ?_⟩
  · rw [findHoverableAncestor, hsm]
    dsimp only
    rw [hoverVisit_eq_getLast]
  · intro n e hk hx hek h1 h2
    simp [hoverPromotes, hk, hx, hek, h1, h2]
  · intro n e nm hk hx hek hnm h1 h2
    simp [hoverPromotes, hk, hx, hek, hnm, h1, h2]
  · intro n nm hk hnm h1 h2
    rcases hk with hk | hk | hk <;> simp [hoverPromotes, hk, hnm, h1, h2]
  · intro n nm hk hnm hnmk h1 h2
    rcases hk with hk | hk | hk <;> simp [hoverPromotes, hk, hnm, hnmk, h1, h2]

/-- C5 witness: at offset 1 of the example call file (on the callee
identifier `foo`), the smallest node is the callee identifier, the call
expression satisfies the promotion predicate, and ancestor widening
returns the last promoted containing node. -/
theorem findHoverableAncestor_promotion_witness :
    findHoverableAncestor exCallSf 1 =
      Option.some ((((containList 1 exCallSf.root).filter
        (hoverPromotes 1)).getLast?).getD exCalleeId) ∧
    hoverPromotes 1 exCall = true := by
  have h := findHoverableAncestor_promotion exCallSf 1 exCalleeId rfl
  exact ⟨h.1, h.2.1 exCall exCalleeId rfl rfl rfl (by decide) (by decide)⟩

/- ===== C3 ===== -/

/-- C3: for a loadable file, any position with line outside
[1, line count] or column outside [1, lineLength + 1] yields an absent
node at the locator layer, and the public position lookup fails with the
position-not-found condition (one of the classified failure conditions,
never an unclassified error); column = lineLength + 1 still passes
validation (the lookup proceeds to the ancestor search at the converted
offset) while any larger column is rejected. -/
theorem findNodeAtPosition_bounds (env : Env) (file : String) (options : HoverOptions)
    (program : Program) (sf : SourceFile) (line column : Int)
    (hex : env.fileExists (env.resolvePath file) = true)
    (hload : env.loadProgram (env.resolvePath file) options.project = .ok program)
    (hsf : program.sourceFileOf (env.resolvePath file) = Option.some sf) :
    ((line < 1 ∨ line > (sf.lineStarts.length : Int) ∨ column < 1 ∨
        column > (lineLengthAt sf line : Int) + 1) →
      findNodeAtPosition sf line column = Option.none ∧
      hoverByPositionImpl env file line column options =
        .error (.positionNotFound (env.resolvePath file) line column)) ∧
    (1 ≤ line → line ≤ (sf.lineStarts.length : Int) →
      column = (lineLengthAt sf line : Int) + 1 →
      findNodeAtPosition sf line column =
        findHoverableAncestor sf
          (sf.lineStarts.getD (line - 1).toNat 0 + (column - 1).toNat)) := by
  constructor
  · intro hout
    have hnone : findNodeAtPosition sf line column = Option.none := by
      rw [findNodeAtPosition]
      by_cases h1 : line < 1 ∨ line > (sf.lineStarts.length : Int)
      · rw [if_pos h1]
      · rw [if_neg h1]
        have h2 : column < 1 ∨ column > (lineLengthAt sf line : Int) + 1 := by
          rcases hout with h | h | h | h
          · exact absurd (Or.inl h) h1
          · exact absurd (Or.inr h) h1
          · exact Or.inl h
          · exact Or.inr h
        rw [if_pos h2]
    refine ⟨hnone, ?_⟩
    rw [hoverByPositionImpl, hex]
    simp only [Bool.true_eq_false, if_false, hload, hsf, hnone]
  · intro hl1 hl2 hcol
    rw [findNodeAtPosition,
      if_neg (by push_neg; exact ⟨hl1, hl2⟩),
      if_neg (by push_neg; constructor <;> omega)]

/-- C3 witness: line 99 is out of bounds for the one-line example file, so
the locator yields no node and the public lookup fails with the
position-not-found condition; column 6 = lineLength + 1 of line 1 is still
accepted and column 7 is rejected. -/
theorem findNodeAtPosition_bounds_witness :
    (findNodeAtPosition exEqSf 99 1 = Option.none ∧
      hoverByPositionImpl exEnv "eq.ts" 99 1 exOptions =
        .error (.positionNotFound "eq.ts" 99 1)) ∧
    findNodeAtPosition exEqSf 1 6 =
      findHoverableAncestor exEqSf
        (exEqSf.lineStarts.getD ((1 : Int) - 1).toNat 0 + ((6 : Int) - 1).toNat) ∧
    findNodeAtPosition exEqSf 1 7 = Option.none := by
  refine ⟨?_, ?_, ?_⟩
  · exact (findNodeAtPosition_bounds exEnv "eq.ts" exOptions exProgram exEqSf 99 1
      rfl rfl rfl).1 (by right; left; decide)
  · exact (findNodeAtPosition_bounds exEnv "eq.ts" exOptions exProgram exEqSf 1 6
      rfl rfl rfl).2 (by decide) (by decide) (by decide)
  · exact ((findNodeAtPosition_bounds exEnv "eq.ts" exOptions exProgram exEqSf 1 7
      rfl rfl rfl).1 (by right; right; right; decide)).1

theorem except_bind_ok {ε α β : Type} (a : α) (f : α → Except ε β) :
    (Except.ok a : Except ε α) >>= f = f a := rfl

theorem except_bind_error {ε α β : Type} (e : ε) (f : α → Except ε β) :
    (Except.error e : Except ε α) >>= f = Except.error e := rfl

theorem lift_getResolvedSignature (pc : PureChecker) (n : Node) :
    (PureChecker.lift pc).getResolvedSignature n = .ok (pc.getResolvedSignature n) := rfl

theorem lift_signatureToString (pc : PureChecker) (s : Sig) :
    (PureChecker.lift pc).signatureToString s = .ok (pc.signatureToString s) := rfl

theorem lift_getReturnTypeOfSignature (pc : PureChecker) (s : Sig) :
    (PureChecker.lift pc).getReturnTypeOfSignature s = .ok (pc.getReturnTypeOfSignature s) := rfl

theorem lift_typeToString (pc : PureChecker) (t : Ty) :
    (PureChecker.lift pc).typeToString t = .ok (pc.typeToString t) := rfl

theorem lift_getTypeAtLocation (pc : PureChecker) (n : Node) :
    (PureChecker.lift pc).getTypeAtLocation n = .ok (pc.getTypeAtLocation n) := rfl

theorem lift_getSignatureFromDeclaration (pc : PureChecker) (n : Node) :
    (PureChecker.lift pc).getSignatureFromDeclaration n = .ok (pc.getSignatureFromDeclaration n) := rfl

theorem lift_getSymbolAtLocation (pc : PureChecker) (n : Node) :
    (PureChecker.lift pc).getSymbolAtLocation n = .ok (pc.getSymbolAtLocation n) := rfl

theorem lift_getDocComment (pc : PureChecker) (s : SymId) :
    (PureChecker.lift pc).getDocComment s = .ok (pc.getDocComment s) := rfl

theorem declSignatureOf_lift (pc : PureChecker) (n : Node) :
    ∃ v, declSignatureOf (PureChecker.lift pc) n = .ok v := by
  rw [declSignatureOf]
  split
  · exact ⟨_, rfl⟩
  · split
    · split
      · split
        · exact ⟨_, rfl⟩
        · exact ⟨_, rfl⟩
      · exact ⟨_, rfl⟩
    · split
      · split
        · split
          · exact ⟨_, rfl⟩
          · exact ⟨_, rfl⟩
        · exact ⟨_, rfl⟩
      · split
        · exact ⟨_, rfl⟩
        · exact ⟨_, rfl⟩

theorem getDocumentation_lift (pc : PureChecker) (s : Option SymId) :
    getDocumentation (PureChecker.lift pc) s =
      .ok (match s with
        | Option.none => Option.none
        | Option.some v =>
          if (pc.getDocComment v).length = 0 then Option.none
          else Option.some (String.join (pc.getDocComment v))) := by
  cases s with
  | none => rfl
  | some v =>
    rw [getDocumentation]
    by_cases hc : pc.getDocComment v = [] <;>
      simp [PureChecker.lift, except_bind_ok, hc, pure, Except.pure]

/- ===== C1 ===== -/

/-- C1: for a resolved call-expression node and a checker that does not
throw, the extractor asks the checker for the signature resolved at that
call site; when resolution yields a signature the result carries that
formatted signature together with the separately formatted return type,
and exactly when resolution fails the result is the plain expression type
of the whole call with no return type.  The same dispatch governs the
name-lookup extractor `getTypeInfo`. -/
theorem getHoverInfo_call_site_signature (pc : PureChecker) (n : Node)
    (sf : SourceFile) (includeDocs : Bool) (hcall : n.kind = .callExpression) :
    (∀ sig, pc.getResolvedSignature n = Option.some sig →
      ∃ r, getHoverInfoImpl (PureChecker.lift pc) n sf includeDocs = .ok r ∧
        r.signature = pc.signatureToString sig ∧
        r.returnType = Option.some (pc.typeToString (pc.getReturnTypeOfSignature sig))) ∧
    (pc.getResolvedSignature n = Option.none →
      ∃ r, getHoverInfoImpl (PureChecker.lift pc) n sf includeDocs = .ok r ∧
        r.signature = pc.typeToString (pc.getTypeAtLocation n) ∧
        r.returnType = Option.none) ∧
    (∀ sig, pc.getResolvedSignature n = Option.some sig →
      ∃ r, getTypeInfo (PureChecker.lift pc) n sf = .ok r ∧
        r.signature = pc.signatureToString sig ∧
        r.returnType = Option.some (pc.typeToString (pc.getReturnTypeOfSignature sig))) ∧
    (pc.getResolvedSignature n = Option.none →
      ∃ r, getTypeInfo (PureChecker.lift pc) n sf = .ok r ∧
        r.signature = pc.typeToString (pc.getTypeAtLocation n) ∧
        r.returnType = Option.none) := by
  refine ⟨fun sig hsig => ?_, fun hsig => ?_, fun sig hsig => ?_, fun hsig => ?_⟩ <;>
    cases hdoc : includeDocs <;>
      · simp only [getHoverInfoImpl, getTypeInfo, except_bind_ok,
          lift_getResolvedSignature, lift_signatureToString, lift_getReturnTypeOfSignature,
          lift_typeToString, lift_getTypeAtLocation, lift_getSymbolAtLocation,
          getDocumentation_lift, hcall, hsig, hdoc, if_true, if_false, eq_self_iff_true,
          pure, Except.pure, Bool.false_eq_true, ite_true, ite_false]
        exact ⟨_, rfl, rfl, rfl⟩

/-- C1 witness: on the example call `foo(1)` with the non-throwing example
checker (which resolves signature handle 7), the extractor returns that
formatted signature with its separately formatted return type. -/
theorem getHoverInfo_call_site_signature_witness :
    ∃ r, getHoverInfoImpl (PureChecker.lift exOkPure) exCall exCallSf false = .ok r ∧
      r.signature = exOkPure.signatureToString 7 ∧
      r.returnType = Option.some (exOkPure.typeToString (exOkPure.getReturnTypeOfSignature 7)) :=
  (getHoverInfo_call_site_signature exOkPure exCall exCallSf false rfl).1 7 rfl

/- ===== C7 ===== -/

/-- C7: whenever the extractor raises an internal compiler error, the
public hover extraction re-raises it as the single
`TypeScriptInternalError` taxonomy member — carrying the file, the node's
1-based line/column, the attempted operation and the original cause, never
the raw error — and the wrapped message appends the remediation hints
exactly when the underlying message (lower-cased) contains
"debug failure". -/
theorem getHoverInfo_wraps_internal_errors (checker : Checker) (node : Node)
    (sf : SourceFile) (includeDocs : Bool) (e : Err)
    (himpl : getHoverInfoImpl checker node sf includeDocs = .error e) :
    getHoverInfo checker node sf includeDocs =
      .error (mkTypeScriptInternalError sf.fileName
        (Option.some ((lineCharOfPos sf.lineStarts node.startPos).1 + 1))
        (Option.some ((lineCharOfPos sf.lineStarts node.startPos).2 + 1))
        "getting type information" e) ∧
    ∀ w, getHoverInfo checker node sf includeDocs = .error w →
      w.file = sf.fileName ∧
      w.line = Option.some ((lineCharOfPos sf.lineStarts node.startPos).1 + 1) ∧
      w.column = Option.some ((lineCharOfPos sf.lineStarts node.startPos).2 + 1) ∧
      w.operation = "getting type information" ∧
      w.cause = e ∧
      w.message = "TypeScript error while getting type information at "
        ++ sf.fileName ++ ":" ++ toString ((lineCharOfPos sf.lineStarts node.startPos).1 + 1)
        ++ ":" ++ toString ((lineCharOfPos sf.lineStarts node.startPos).2 + 1) ++ ": "
        ++ e.message
        ++ (if strIncludes (toLowerStr e.message) "debug failure" = true
            then debugFailureHints else "") := by
  have hwrap : getHoverInfo checker node sf includeDocs =
      .error (mkTypeScriptInternalError sf.fileName
        (Option.some ((lineCharOfPos sf.lineStarts node.startPos).1 + 1))
        (Option.some ((lineCharOfPos sf.lineStarts node.startPos).2 + 1))
        "getting type information" e) := by
    rw [getHoverInfo, himpl]
  refine ⟨hwrap, fun w hw => ?_⟩
  rw [hwrap] at hw
  have hw2 : mkTypeScriptInternalError sf.fileName
      (Option.some ((lineCharOfPos sf.lineStarts node.startPos).1 + 1))
      (Option.some ((lineCharOfPos sf.lineStarts node.startPos).2 + 1))
      "getting type information" e = w := by
    cases hw; rfl
  subst hw2
  refine ⟨rfl, rfl, rfl, rfl, rfl, ?_⟩
  rw [mkTypeScriptInternalError]
  simp only [Nat.succ_ne_zero, ne_eq, not_false_eq_true, if_true, getSuggestions]
  split
  · simp [String.append_assoc]
  · simp [String.append_assoc]

/-- C7 witness: extracting with the example throwing checker (whose symbol
lookup raises the "Debug Failure" error) on the example child node yields
the wrapped taxonomy member with file, line 1, column 1, the attempted
operation, the original cause, and a message ending in the remediation
hints. -/
theorem getHoverInfo_wraps_internal_errors_witness :
    getHoverInfo exThrowChecker exEqChild exEqSf false =
      .error (mkTypeScriptInternalError "eq.ts" (Option.some 1) (Option.some 1)
        "getting type information" exDebugErr) ∧
    ∀ w, getHoverInfo exThrowChecker exEqChild exEqSf false = .error w →
      w.message = "TypeScript error while getting type information at eq.ts:1:1: "
        ++ exDebugErr.message ++ debugFailureHints := by
  have h := getHoverInfo_wraps_internal_errors exThrowChecker exEqChild exEqSf false
    exDebugErr rfl
  refine ⟨h.1, fun w hw => ?_⟩
  have hm := ((h.2 w hw).2.2.2.2.2)
  rw [hm]
  rfl

/- ===== batch lookup lemmas ===== -/

theorem getHoverInfo_error_message_ne_empty (checker : Checker) (node : Node)
    (sf : SourceFile) (includeDocs : Bool) (w : TypeScriptInternalError)
    (h : getHoverInfo checker node sf includeDocs = .error w) : w.message ≠ "" := by
  rw [getHoverInfo] at h
  cases himpl : getHoverInfoImpl checker node sf includeDocs with
  | ok r => rw [himpl] at h; cases h
  | error e =>
    rw [himpl] at h
    have hw : mkTypeScriptInternalError sf.fileName
        (Option.some ((lineCharOfPos sf.lineStarts node.startPos).1 + 1))
        (Option.some ((lineCharOfPos sf.lineStarts node.startPos).2 + 1))
        "getting type information" e = w := by cases h; rfl
    rw [← hw, mkTypeScriptInternalError]
    exact append_ne_empty_left _ _ (append_ne_empty_left _ _ (append_ne_empty_left _ _
      (append_ne_empty_left _ _ (append_ne_empty_left _ _ (by decide)))))

theorem processPosition_position (program : Program) (sf : SourceFile)
    (docs : Bool) (p : HoverPosition) :
    (processPosition program sf docs p).position = p := by
  cases hn : findNodeAtPosition sf p.line p.column with
  | none => simp [processPosition, hn]
  | some node =>
    cases hr : getHoverInfo program.checker node sf docs with
    | ok r => simp [processPosition, hn, hr]
    | error e => simp [processPosition, hn, hr]

theorem processPosition_cases (program : Program) (sf : SourceFile)
    (docs : Bool) (p : HoverPosition) :
    (∃ r, processPosition program sf docs p =
      { position := p, result := Option.some r, error := Option.none }) ∨
    (∃ s, s ≠ "" ∧ processPosition program sf docs p =
      { position := p, result := Option.none, error := Option.some s }) := by
  cases hn : findNodeAtPosition sf p.line p.column with
  | none =>
    refine Or.inr ⟨"No symbol at " ++ toString p.line ++ ":" ++ toString p.column, ?_,
      by simp [processPosition, hn]⟩
    exact append_ne_empty_left _ _ (append_ne_empty_left _ _ (append_ne_empty_left _ _
      (by decide)))
  | some node =>
    cases hr : getHoverInfo program.checker node sf docs with
    | ok r => exact Or.inl ⟨r, by simp [processPosition, hn, hr]⟩
    | error e =>
      exact Or.inr ⟨e.message,
        getHoverInfo_error_message_ne_empty program.checker node sf docs e hr,
        by simp [processPosition, hn, hr]⟩

theorem processPosition_good (program : Program) (sf : SourceFile) (docs : Bool)
    (p : HoverPosition) (node : Node) (r : HoverResult)
    (hn : findNodeAtPosition sf p.line p.column = Option.some node)
    (hr : getHoverInfo program.checker node sf docs = .ok r) :
    processPosition program sf docs p =
      { position := p, result := Option.some r, error := Option.none } := by
  simp [processPosition, hn, hr]

theorem processPosition_oob (program : Program) (sf : SourceFile) (docs : Bool)
    (p : HoverPosition) (hn : findNodeAtPosition sf p.line p.column = Option.none) :
    processPosition program sf docs p =
      { position := p, result := Option.none,
        error := Option.some ("No symbol at " ++ toString p.line ++ ":" ++ toString p.column) } := by
  simp [processPosition, hn]

/-- A position the batch loop fully succeeds on. -/
def GoodPos (program : Program) (sf : SourceFile) (docs : Bool) (p : HoverPosition) : Prop :=
  ∃ node r, findNodeAtPosition sf p.line p.column = Option.some node ∧
    getHoverInfo program.checker node sf docs = .ok r

theorem filter_map_good (program : Program) (sf : SourceFile) (docs : Bool) :
    ∀ ps : List HoverPosition, (∀ p ∈ ps, GoodPos program sf docs p) →
      ((ps.map (processPosition program sf docs)).filter itemResultTruthy).length = ps.length ∧
      ((ps.map (processPosition program sf docs)).filter itemErrorTruthy).length = 0 := by
  intro ps
  induction ps with
  | nil => intro _; exact ⟨rfl, rfl⟩
  | cons p ps ih =>
    intro hall
    obtain ⟨node, r, hn, hr⟩ := hall p (List.mem_cons_self p ps)
    have hproc := processPosition_good program sf docs p node r hn hr
    have ihres := ih (fun q hq => hall q (List.mem_cons_of_mem p hq))
    rw [List.map_cons, List.filter_cons, List.filter_cons, hproc]
    constructor
    · simp only [itemResultTruthy, Option.isSome_some, if_true, List.length_cons, ihres.1]
    · simp only [itemErrorTruthy, ihres.2, if_false]
      exact ihres.2

theorem length_filter_add_length_filter {α : Type} (R E : α → Bool) :
    ∀ l : List α,
      (∀ i ∈ l, (R i = true ∧ E i = false) ∨ (R i = false ∧ E i = true)) →
      (l.filter R).length + (l.filter E).length = l.length := by
  intro l
  induction l with
  | nil => intro _; rfl
  | cons a l ih =>
    intro hall
    have ihl := ih (fun i hi => hall i (List.mem_cons_of_mem a hi))
    rw [List.filter_cons, List.filter_cons]
    rcases hall a (List.mem_cons_self a l) with ⟨hR, hE⟩ | ⟨hR, hE⟩ <;>
      simp [hR, hE, List.length_cons] <;> omega

/- ===== C9 ===== -/

/-- C9: every item of a batch result carries exactly one of a result or a
(non-empty) error string — never both, never neither — so the success and
error counts add up to the item count, which equals the number of input
positions. -/
theorem batchHover_items_exactly_one (env : Env) (file : String)
    (positions : List HoverPosition) (options : HoverOptions)
    (program : Program) (sf : SourceFile)
    (hex : env.fileExists (env.resolvePath file) = true)
    (hload : env.loadProgram (env.resolvePath file) options.project = .ok program)
    (hsf : program.sourceFileOf (env.resolvePath file) = Option.some sf) :
    ∃ res, (batchHover env file positions options).1 = .ok res ∧
      res.items.length = positions.length ∧
      (∀ i ∈ res.items,
        ((∃ r, i.result = Option.some r) ∧ i.error = Option.none) ∨
        (i.result = Option.none ∧ ∃ s, i.error = Option.some s ∧ s ≠ "")) ∧
      res.successCount + res.errorCount = res.items.length := by
  have hb : batchHover env file positions options =
      (.ok { items := positions.map (processPosition program sf options.include_docs),
             successCount := ((positions.map (processPosition program sf
               options.include_docs)).filter itemResultTruthy).length,
             errorCount := ((positions.map (processPosition program sf
               options.include_docs)).filter itemErrorTruthy).length }, 1) := by
    simp only [batchHover, hex, Bool.true_eq_false, if_false, hload, hsf]
  rw [hb]
  refine ⟨_, rfl, List.length_map _ _, ?_, ?_⟩
  · intro i hi
    obtain ⟨p, hp, hpe⟩ := List.mem_map.mp hi
    rcases processPosition_cases program sf options.include_docs p with
      ⟨r, hpr⟩ | ⟨s, hs, hpr⟩
    · rw [← hpe, hpr]
      exact Or.inl ⟨⟨r, rfl⟩, rfl⟩
    · rw [← hpe, hpr]
      exact Or.inr ⟨rfl, s, rfl, hs⟩
  · apply length_filter_add_length_filter
    intro i hi
    obtain ⟨p, hp, hpe⟩ := List.mem_map.mp hi
    rcases processPosition_cases program sf options.include_docs p with
      ⟨r, hpr⟩ | ⟨s, hs, hpr⟩
    · rw [← hpe, hpr]
      exact Or.inl ⟨rfl, rfl⟩
    · rw [← hpe, hpr]
      exact Or.inr ⟨rfl, by simp [itemErrorTruthy, hs]⟩

/-- C9 witness: a two-position batch over the example file (one in-bounds,
one out-of-bounds position) has exactly-one-of-result-or-error items and
matching counts. -/
theorem batchHover_items_exactly_one_witness :
    ∃ res, (batchHover exEnv "eq.ts" [⟨1, 3⟩, ⟨99, 1⟩] exOptions).1 = .ok res ∧
      res.items.length = 2 ∧
      (∀ i ∈ res.items,
        ((∃ r, i.result = Option.some r) ∧ i.error = Option.none) ∨
        (i.result = Option.none ∧ ∃ s, i.error = Option.some s ∧ s ≠ "")) ∧
      res.successCount + res.errorCount = res.items.length :=
  batchHover_items_exactly_one exEnv "eq.ts" [⟨1, 3⟩, ⟨99, 1⟩] exOptions
    exProgram exEqSf rfl rfl rfl

/- ===== C6 ===== -/

theorem map_position_processPosition (program : Program) (sf : SourceFile) (docs : Bool) :
    ∀ ps : List HoverPosition,
      (ps.map (processPosition program sf docs)).map BatchHoverItem.position = ps := by
  intro ps
  rw [List.map_map]
  have h : ∀ p ∈ ps, (BatchHoverItem.position ∘ processPosition program sf docs) p = id p :=
    fun p _ => processPosition_position program sf docs p
  rw [List.map_congr_left h, List.map_id]

/-- C6: a batch lookup over a loadable file performs exactly one program
load however many positions are given, never raises as a whole (it returns
a result whose items preserve the input positions in order, one item per
position); and when the positions split as good ++ [out-of-bounds] ++ good
(exactly one failing position), the result has successCount = N - 1,
errorCount = 1 and N items. -/
theorem batchHover_loads_once_single_failure (env : Env) (file : String)
    (options : HoverOptions) (program : Program) (sf : SourceFile)
    (pre post : List HoverPosition) (bad : HoverPosition)
    (hex : env.fileExists (env.resolvePath file) = true)
    (hload : env.loadProgram (env.resolvePath file) options.project = .ok program)
    (hsf : program.sourceFileOf (env.resolvePath file) = Option.some sf)
    (hpre : ∀ p ∈ pre, GoodPos program sf options.include_docs p)
    (hbad : findNodeAtPosition sf bad.line bad.column = Option.none)
    (hpost : ∀ p ∈ post, GoodPos program sf options.include_docs p) :
    (∀ ps : List HoverPosition,
      (batchHover env file ps options).2 = 1 ∧
      ∃ res, (batchHover env file ps options).1 = .ok res ∧
        res.items.map BatchHoverItem.position = ps ∧
        res.items.length = ps.length) ∧
    (∃ res, (batchHover env file (pre ++ bad :: post) options).1 = .ok res ∧
      res.items.length = (pre ++ bad :: post).length ∧
      res.successCount = (pre ++ bad :: post).length - 1 ∧
      res.errorCount = 1) := by
  have hb : ∀ ps : List HoverPosition, batchHover env file ps options =
      (.ok { items := ps.map (processPosition program sf options.include_docs),
             successCount := ((ps.map (processPosition program sf
               options.include_docs)).filter itemResultTruthy).length,
             errorCount := ((ps.map (processPosition program sf
               options.include_docs)).filter itemErrorTruthy).length }, 1) := by
    intro ps
    simp only [batchHover, hex, Bool.true_eq_false, if_false, hload, hsf]
  have hproc := processPosition_oob program sf options.include_docs bad hbad
  constructor
  · intro ps
    rw [hb ps]
    exact ⟨rfl, _, rfl, map_position_processPosition program sf options.include_docs ps,
      List.length_map _ _⟩
  · rw [hb (pre ++ bad :: post)]
    refine ⟨_, rfl, List.length_map _ _, ?_, ?_⟩
    · -- successCount = N - 1
      dsimp only
      have hR : itemResultTruthy
          { position := bad, result := Option.none,
            error := Option.some ("No symbol at " ++ toString bad.line ++ ":"
              ++ toString bad.column) } = false := rfl
      have hsplit : ((pre ++ bad :: post).map (processPosition program sf
            options.include_docs)).filter itemResultTruthy =
          (pre.map (processPosition program sf options.include_docs)).filter
            itemResultTruthy ++
          (post.map (processPosition program sf options.include_docs)).filter
            itemResultTruthy := by
        rw [List.map_append, List.map_cons, List.filter_append, List.filter_cons,
          hproc, hR]
        simp
      rw [hsplit, List.length_append,
        (filter_map_good program sf options.include_docs pre hpre).1,
        (filter_map_good program sf options.include_docs post hpost).1,
        List.length_append, List.length_cons]
      omega
    · -- errorCount = 1
      dsimp only
      have hE : itemErrorTruthy
          { position := bad, result := Option.none,
            error := Option.some ("No symbol at " ++ toString bad.line ++ ":"
              ++ toString bad.column) } = true := by
        have hne : ("No symbol at " ++ toString bad.line ++ ":" ++ toString bad.column) ≠ "" :=
          append_ne_empty_left _ _ (append_ne_empty_left _ _ (append_ne_empty_left _ _
            (by decide)))
        simp [itemErrorTruthy, hne]
      have hprenil : (pre.map (processPosition program sf
            options.include_docs)).filter itemErrorTruthy = [] :=
        List.eq_nil_of_length_eq_zero
          (filter_map_good program sf options.include_docs pre hpre).2
      have hpostnil : (post.map (processPosition program sf
            options.include_docs)).filter itemErrorTruthy = [] :=
        List.eq_nil_of_length_eq_zero
          (filter_map_good program sf options.include_docs post hpost).2
      rw [List.map_append, List.map_cons, List.filter_append, List.filter_cons,
        hproc, hE, hprenil, hpostnil]
      simp

/-- C6 witness: a three-position batch over the example file with exactly
the middle position out of bounds loads the program once and returns two
successes, one error, three items. -/
theorem batchHover_loads_once_single_failure_witness :
    (batchHover exEnv "eq.ts" [⟨1, 3⟩, ⟨99, 1⟩, ⟨1, 1⟩] exOptions).2 = 1 ∧
    ∃ res, (batchHover exEnv "eq.ts" [⟨1, 3⟩, ⟨99, 1⟩, ⟨1, 1⟩] exOptions).1 = .ok res ∧
      res.items.length = 3 ∧ res.successCount = 2 ∧ res.errorCount = 1 := by
  have h := batchHover_loads_once_single_failure exEnv "eq.ts" exOptions exProgram exEqSf
    [⟨1, 3⟩] [⟨1, 1⟩] ⟨99, 1⟩ rfl rfl rfl
    (fun p hp => by
      rcases List.mem_cons.mp hp with h1 | h1
      · subst h1; exact ⟨exEqChild, _, rfl, rfl⟩
      · cases h1)
    rfl
    (fun p hp => by
      rcases List.mem_cons.mp hp with h1 | h1
      · subst h1; exact ⟨exEqChild, _, rfl, rfl⟩
      · cases h1)
  obtain ⟨res, h1, h2, h3, h4⟩ := h.2
  exact ⟨(h.1 [⟨1, 3⟩, ⟨99, 1⟩, ⟨1, 1⟩]).1, res, h1, h2, h3, h4⟩
